import Mathlib

/-!
Shallow embedding of `src/doc_splitter.py` (`split_document`) from the
DocSplit repository.

Document bodies are modelled as ordered lists of raw body elements
(`RawElem`): paragraph elements (`w:p`) and table elements (`w:tbl`).
A paragraph owns a list of runs; each run owns a style marker (opaque
formatting, `""` meaning default) and its ordered inline content: text
chunks and break elements, kept in document order because python-docx
both renders them in order (`run.text` emits a newline for every
`w:br` or `w:cr`) and re-materializes them in order (the `text` setter
turns each newline back into a `w:br` line-break element).  A `w:tab`
round-trips through `text` as the tab character, so it is represented
by that character inside a text chunk.  A table owns a style marker
and its rows of cell texts.

Machine-level effects are made explicit: filesystem existence of the
input is a boolean of the input record, creation of the output
directory is a boolean threaded through `split`, raised exceptions are
`Except` errors, and saved files are `(name, body)` pairs in the
result.
-/

namespace DocSplit

inductive BreakKind
  | line
  | page
  | column
deriving DecidableEq

/-- One inline item of a run: a chunk of literal text, or a `w:br`
break element of the given kind. -/
inductive Inline
  | text (s : String)
  | br (kind : BreakKind)
deriving DecidableEq

structure Run where
  content : List Inline
  style : String
deriving DecidableEq

inductive Block
  | para (runs : List Run)
  | table (style : String) (rows : List (List String))
deriving DecidableEq

inductive RawElem
  | p (runs : List Run)
  | tbl (style : String) (rows : List (List String))
deriving DecidableEq

/-- Typed stand-ins for the exceptions `split_document` can raise:
`FileNotFoundError`, `ValueError("Document appears to be empty")`, and
the `IndexError` from `element.rows[0]` / cell indexing. -/
inductive SplitError
  | inputNotFound
  | emptyDocument
  | indexError
deriving DecidableEq

instance {ε α : Type} [DecidableEq ε] [DecidableEq α] :
    DecidableEq (Except ε α) := fun x y =>
  match x, y with
  | .error a, .error b =>
      if h : a = b then isTrue (by rw [h])
      else isFalse fun hh => by cases hh; exact h rfl
  | .error _, .ok _ => isFalse fun hh => by cases hh
  | .ok _, .error _ => isFalse fun hh => by cases hh
  | .ok a, .ok b =>
      if h : a = b then isTrue (by rw [h])
      else isFalse fun hh => by cases hh; exact h rfl

/-- Embeds `doc.paragraphs`: the paragraphs of the body, in document order. -/
def docParagraphs (body : List RawElem) : List Block :=
  body.filterMap fun e =>
    match e with
    | .p runs => some (.para runs)
    | .tbl _ _ => none

/-- Embeds `doc.tables`: the tables of the body, in document order. -/
def docTables (body : List RawElem) : List Block :=
  body.filterMap fun e =>
    match e with
    | .p _ => none
    | .tbl s rows => some (.table s rows)

/-- Python `hasattr(e, 'text')`: true of paragraphs. -/
def isParaBlock : Block → Bool
  | .para _ => true
  | .table _ _ => false

/-- Python `hasattr(e, 'rows')`: true of tables. -/
def isTableBlock : Block → Bool
  | .para _ => false
  | .table _ _ => true

/-- The element-combination loop of `split_document` (lines 62–77):
walks `doc.element.body`; a `w:p` tag first flushes any pending table
and then appends `doc.paragraphs[#paragraphs already in elements]`; a
`w:tbl` tag overwrites the pending table with
`doc.tables[#tables already in elements]`; a pending table left at the
end is appended. -/
def buildElements (paras tables : List Block) :
    List RawElem → List Block → Option Block → List Block
  | [], elems, none => elems
  | [], elems, some t => elems ++ [t]
  | .p _ :: rest, elems, ct =>
      let elems1 := match ct with
        | some t => elems ++ [t]
        | none => elems
      let elems2 :=
        elems1 ++ [paras.getD (elems1.filter isParaBlock).length (.para [])]
      buildElements paras tables rest elems2 none
  | .tbl _ _ :: rest, elems, _ =>
      buildElements paras tables rest elems
        (some (tables.getD (elems.filter isTableBlock).length (.table "" [])))

/-- Lines 62–77 of `split_document`: combine paragraphs and tables of
the body into one `elements` list. -/
def parseElements (body : List RawElem) : List Block :=
  buildElements (docParagraphs body) (docTables body) body [] none

/-- Python `br.get(qn('w:type')) == 'page'`: true of a page-type break
element, false of text and of the other break kinds. -/
def isPageBreakItem : Inline → Bool
  | .br .page => true
  | _ => false

/-- A run triggers one page-break detection when it contains at least
one `w:br` of type `page` (the inner loop stops at the first one). -/
def runHasPageBreak (r : Run) : Bool :=
  r.content.any isPageBreakItem

/-- Number of page-index increments an element causes in the scan loop:
one per run containing a page-type break; tables cause none. -/
def blockBreakRuns : Block → Nat
  | .para runs => (runs.filter runHasPageBreak).length
  | .table _ _ => 0

/-- Total number of page-type break markers in an element. -/
def blockPageMarkers : Block → Nat
  | .para runs =>
      (runs.map fun r => (r.content.filter isPageBreakItem).length).sum
  | .table _ _ => 0

/-- Embeds `all_pages[current_page_idx].append(element)`:
`current_page_idx` always indexes the last page. -/
def appendToLast (pages : List (List Block)) (b : Block) :
    List (List Block) :=
  match pages with
  | [] => [[b]]
  | [pg] => [pg ++ [b]]
  | pg :: rest => pg :: appendToLast rest b

/-- One iteration of the scan loop (lines 80–93): the element joins the
current page, then each of its page-break-bearing runs appends a fresh
empty page. -/
def scanStep (pages : List (List Block)) (b : Block) : List (List Block) :=
  appendToLast pages b ++ List.replicate (blockBreakRuns b) []

/-- Lines 80–93: split `elements` into pages at inline page breaks,
starting from `all_pages = [[]]`. -/
def scanPages (elems : List Block) : List (List Block) :=
  elems.foldl scanStep [[]]

/-- Rendering of one inline item in `run.text`: a text chunk is itself,
every break element (any kind) renders as a newline. -/
def inlineText : Inline → String
  | .text s => s
  | .br _ => "\n"

/-- Embeds `run.text`: the run's content rendered in order. -/
def runText (r : Run) : String :=
  String.join (r.content.map inlineText)

/-- Embeds `paragraph.text`: concatenation of the run texts. -/
def paraText (runs : List Run) : String :=
  String.join (runs.map runText)

/-- Truthiness of `s.strip()` in Python: the stripped string is empty
exactly when every character is whitespace. -/
def strBlank (s : String) : Bool :=
  s.data.all Char.isWhitespace

/-- Whether an element contributes a non-empty stripped string in
`get_page_content`. -/
def blockHasContent : Block → Bool
  | .para runs => !strBlank (paraText runs)
  | .table _ rows => rows.any fun row => row.any fun c => !strBlank c

/-- Truthiness of `get_page_content(page)`. -/
def pageHasContent (pg : List Block) : Bool :=
  pg.any blockHasContent

/-- Embeds `add_table(rows=len(element.rows), cols=len(element.rows[0].cells))`
followed by the cell-text copy: fails with `IndexError` when the table
has zero rows, or when a later row has more cells than the first row
(the new table only has `cols` columns).  The copy produces a
default-styled table; cells beyond a short source row keep the new
table's empty text. -/
def copyTable (rows : List (List String)) : Except SplitError Block :=
  match rows with
  | [] => .error .indexError
  | r0 :: _ =>
      if rows.all fun r => r.length ≤ r0.length then
        .ok (.table ""
          (rows.map fun r => r ++ List.replicate (r0.length - r.length) ""))
      else .error .indexError

/-- Flushes the pending text chunk of the text setter: an empty chunk
emits nothing. -/
def emitChunk (acc : List Char) : List Inline :=
  if acc.isEmpty then [] else [.text (String.mk acc)]

/-- Character loop of python-docx's run-content appender: ordinary
characters accumulate into a text chunk; each newline (or carriage
return) flushes the chunk and appends a `w:br` line-break element. -/
def textToInlinesAux : List Char → List Char → List Inline
  | [], acc => emitChunk acc
  | c :: cs, acc =>
      if c = '\n' ∨ c = '\r' then
        emitChunk acc ++ .br .line :: textToInlinesAux cs []
      else textToInlinesAux cs (acc ++ [c])

/-- Embeds the `paragraph.text` setter used by `new_para.text =
element.text`: the string becomes one run whose content is its text
chunks with every newline re-materialized as a line-break element. -/
def textToInlines (s : String) : List Inline :=
  textToInlinesAux s.data []

/-- The per-element body of the three identical copy loops
(lines 116–125, 145–154, 161–170): a paragraph with whitespace-only
text is skipped; otherwise `add_paragraph()` plus `new_para.text = ...`
yields a single default-styled run holding the rendered text, newlines
re-materialized as line breaks; a table is rebuilt by `copyTable`. -/
def copyBlockOne : Block → Except SplitError (List Block)
  | .para runs =>
      if strBlank (paraText runs) then .ok []
      else .ok [.para [⟨textToInlines (paraText runs), ""⟩]]
  | .table _ rows => (copyTable rows).map fun t => [t]

/-- A whole copy loop over a page's elements; the first failing
element aborts the loop, as the raised `IndexError` would. -/
def copyBlocks : List Block → Except SplitError (List Block)
  | [] => .ok []
  | b :: rest =>
      match copyBlockOne b with
      | .error e => .error e
      | .ok hd =>
          match copyBlocks rest with
          | .error e => .error e
          | .ok tl => .ok (hd ++ tl)

/-- Embeds `student_doc.add_paragraph().add_run().add_break(WD_BREAK.PAGE)`:
an empty paragraph holding one run with a single page-break element. -/
def syntheticBreakParagraph : Block :=
  .para [⟨[.br .page], ""⟩]

/-- Lines 141–170: a student document is the copied overview, the
synthetic break paragraph, then the copied student page. -/
def composeStudent (overview page : List Block) :
    Except SplitError (List Block) :=
  match copyBlocks overview with
  | .error e => .error e
  | .ok ov =>
      match copyBlocks page with
      | .error e => .error e
      | .ok pg => .ok (ov ++ [syntheticBreakParagraph] ++ pg)

/-- Embeds the name `Student_` ++ count ++ `.docx`. -/
def studentName (n : Nat) : String :=
  "Student_" ++ toString n ++ ".docx"

/-- Lines 133–175: the per-student loop over `all_pages[1:]`, carrying
`student_count`; pages whose content is empty are skipped, otherwise
the composed document is saved under `Student_{student_count}.docx`. -/
def studentLoop (overview : List Block) :
    List (List Block) → Nat → Except SplitError (Nat × List (String × List Block))
  | [], count => .ok (count, [])
  | page :: rest, count =>
      if pageHasContent page then
        match composeStudent overview page with
        | .error e => .error e
        | .ok body =>
            match studentLoop overview rest (count + 1) with
            | .error e => .error e
            | .ok (n, outs) =>
                .ok (n, (studentName (count + 1), body) :: outs)
      else studentLoop overview rest count

/-- A successful run: the returned `student_count`, the saved overview
body, the saved student files in order, and whether the
no-page-breaks warning was emitted (lines 178–179: exactly when the
count is zero). -/
structure RunResult where
  count : Nat
  overviewBody : List Block
  students : List (String × List Block)
  warned : Bool
deriving DecidableEq

/-- The input as `split_document` sees it: whether
`os.path.exists(input_file_path)` holds, and the parsed body. -/
structure SplitInput where
  fileExists : Bool
  body : List RawElem
deriving DecidableEq

/-- The pages kept after pruning (line 105). -/
def retainedPages (body : List RawElem) : List (List Block) :=
  (scanPages (parseElements body)).filter pageHasContent

/-- Embeds `split_document` end to end.  `dirExists` models whether the output
directory exists before the call; the second component is whether it
exists after.  The existence check precedes directory creation;
directory creation precedes parsing and the empty-document check. -/
def split (inp : SplitInput) (dirExists : Bool) :
    Except SplitError RunResult × Bool :=
  if inp.fileExists then
    match retainedPages inp.body with
    | [] => (.error .emptyDocument, true)
    | overview :: students =>
        match copyBlocks overview with
        | .error e => (.error e, true)
        | .ok ovBody =>
            match studentLoop overview students 0 with
            | .error e => (.error e, true)
            | .ok (n, outs) => (.ok ⟨n, ovBody, outs, n == 0⟩, true)
  else (.error .inputNotFound, dirExists)

/-! ### Derived notions used by the statements -/

/-- Whether a paragraph still carries a page-break marker. -/
def blockHasPageBreak : Block → Bool
  | .para runs => runs.any runHasPageBreak
  | .table _ _ => false

/-- Total page-index increments caused by a whole element list. -/
def totalBreakRuns (elems : List Block) : Nat :=
  (elems.map blockBreakRuns).sum

/-- Total page-type break markers in a whole element list. -/
def totalPageMarkers (elems : List Block) : Nat :=
  (elems.map blockPageMarkers).sum

/-- The padded rows a successful table copy produces. -/
def padRows (rows : List (List String)) : List (List String) :=
  match rows with
  | [] => []
  | r0 :: _ => rows.map fun r => r ++ List.replicate (r0.length - r.length) ""

/-- What one copy-loop iteration keeps of a block, when it does not
fail: blank paragraphs vanish, other paragraphs become a single
default-styled run holding the rendered text with newlines
re-materialized as line breaks, tables become default-styled padded
text grids. -/
def copyBlockSpec : Block → Option Block
  | .para runs =>
      if strBlank (paraText runs) then none
      else some (.para [⟨textToInlines (paraText runs), ""⟩])
  | .table _ rows => some (.table "" (padRows rows))

/-- An inline item the text setter can produce: a text chunk or a
line break; page and column breaks cannot. -/
def inlineIsPlainItem : Inline → Bool
  | .text _ => true
  | .br .line => true
  | .br _ => false

/-- A block carrying no formatting: a paragraph of exactly one
default-styled run whose content is only text and line breaks (no
page or column breaks), or a default-styled table. -/
def blockIsPlain : Block → Bool
  | .para rs =>
      match rs with
      | [r] => (r.style == "") && r.content.all inlineIsPlainItem
      | _ => false
  | .table s _ => s == ""

/-- Whether a page contains a table with zero rows. -/
def containsZeroRowTable (pg : List Block) : Bool :=
  pg.any fun b =>
    match b with
    | .table _ [] => true
    | _ => false

/-- Stated from the spec's words, for comparison: the body "with break
markers removed", i.e. every page-type break element deleted from its
run's content. -/
def specStripPageMarkers (elems : List Block) : List Block :=
  elems.map fun b =>
    match b with
    | .para runs =>
        .para (runs.map fun r =>
          ⟨r.content.filter fun i => !isPageBreakItem i, r.style⟩)
    | t => t

/-! ### Concrete bodies used in the claim theorems -/

def c1Runs : List Run :=
  [⟨[.text "a", .br .page, .text "b"], ""⟩]

def c1Body : List RawElem := [.p c1Runs, .p [⟨[.text "c"], ""⟩]]

def c2Body : List RawElem :=
  [.p [⟨[.text "a", .br .page], ""⟩]]

def c3Body : List RawElem :=
  [.p [⟨[.text "Overview"], ""⟩], .p [⟨[.br .page], ""⟩],
   .tbl "" [["Student:", "Jane Doe", "Course", "CS101"]]]

def c3Res : RunResult :=
  ⟨1, [.para [⟨[.text "Overview"], ""⟩]],
   [("Student_1.docx",
     [.para [⟨[.text "Overview"], ""⟩], syntheticBreakParagraph,
      .table "" [["Student:", "Jane Doe", "Course", "CS101"]]])],
   false⟩

def c4Body : List RawElem :=
  [.p [⟨[.text "P1"], ""⟩], .p [⟨[.text "P2"], ""⟩], .p [⟨[.br .page], ""⟩],
   .tbl "" [["Student:", "Amy"]], .p [⟨[.text "P4"], ""⟩],
   .p [⟨[.br .page], ""⟩], .tbl "" [["Student:", "Bo"]],
   .p [⟨[.text "P6"], ""⟩]]

def c4Ov : List Block :=
  [.para [⟨[.text "P1"], ""⟩], .para [⟨[.text "P2"], ""⟩],
   .para [⟨[.br .page], ""⟩]]

def c4Pgs : List (List Block) :=
  [[.table "" [["Student:", "Amy"]], .para [⟨[.text "P4"], ""⟩],
    .para [⟨[.br .page], ""⟩]],
   [.table "" [["Student:", "Bo"]], .para [⟨[.text "P6"], ""⟩]]]

def c4Res : RunResult :=
  ⟨2, [.para [⟨[.text "P1"], ""⟩], .para [⟨[.text "P2"], ""⟩]],
   [("Student_1.docx",
     [.para [⟨[.text "P1"], ""⟩], .para [⟨[.text "P2"], ""⟩],
      syntheticBreakParagraph, .table "" [["Student:", "Amy"]],
      .para [⟨[.text "P4"], ""⟩]]),
    ("Student_2.docx",
     [.para [⟨[.text "P1"], ""⟩], .para [⟨[.text "P2"], ""⟩],
      syntheticBreakParagraph, .table "" [["Student:", "Bo"]],
      .para [⟨[.text "P6"], ""⟩]])],
   false⟩

def c4cBody : List RawElem :=
  [.p [⟨[.text "x"], ""⟩], .p [⟨[.text " "], ""⟩], .p [⟨[.br .page], ""⟩],
   .p [⟨[.text "y"], ""⟩]]

def c4cOv : List Block :=
  [.para [⟨[.text "x"], ""⟩], .para [⟨[.text " "], ""⟩],
   .para [⟨[.br .page], ""⟩]]

def c4cPg : List Block := [.para [⟨[.text "y"], ""⟩]]

def c4cRes : RunResult :=
  ⟨1, [.para [⟨[.text "x"], ""⟩]],
   [("Student_1.docx",
     [.para [⟨[.text "x"], ""⟩], syntheticBreakParagraph,
      .para [⟨[.text "y"], ""⟩]])],
   false⟩

def c5Body : List RawElem :=
  [.p [⟨[.text "a", .br .page, .text "b"], "Bold"⟩], .p [⟨[.text "y"], ""⟩]]

def c5Pg0 : List Block :=
  [.para [⟨[.text "a", .br .page, .text "b"], "Bold"⟩]]

def c5Res : RunResult :=
  ⟨1, [.para [⟨[.text "a", .br .line, .text "b"], ""⟩]],
   [("Student_1.docx",
     [.para [⟨[.text "a", .br .line, .text "b"], ""⟩],
      syntheticBreakParagraph, .para [⟨[.text "y"], ""⟩]])],
   false⟩

def c6Body : List RawElem :=
  [.tbl "A" [["a"]], .tbl "B" [["b"]], .p [⟨[.text "P"], ""⟩]]

def c7Body : List RawElem := [.p [⟨[.text "x"], ""⟩]]

def c7cBody : List RawElem := [.p [⟨[.text " "], ""⟩]]

def c8cBody : List RawElem := [.p [⟨[.text "\t"], ""⟩]]

def c9Body : List RawElem := [.p [⟨[.text "x"], ""⟩], .tbl "" []]

/-! ### Scanner lemmas -/

theorem appendToLast_flatten (pages : List (List Block)) (b : Block) :
    (appendToLast pages b).flatten = pages.flatten ++ [b] := by
  induction pages with
  | nil => simp [appendToLast]
  | cons pg rest ih =>
      cases rest with
      | nil => simp [appendToLast]
      | cons pg2 rest2 => simpa [appendToLast] using ih

theorem appendToLast_length (pages : List (List Block)) (b : Block)
    (h : pages ≠ []) : (appendToLast pages b).length = pages.length := by
  induction pages with
  | nil => exact absurd rfl h
  | cons pg rest ih =>
      cases rest with
      | nil => simp [appendToLast]
      | cons pg2 rest2 =>
          simp only [appendToLast, List.length_cons]
          rw [ih (by simp)]
          simp

theorem appendToLast_ne_nil (pages : List (List Block)) (b : Block) :
    appendToLast pages b ≠ [] := by
  cases pages with
  | nil => simp [appendToLast]
  | cons pg rest => cases rest <;> simp [appendToLast]

theorem flatten_replicate_nil (n : Nat) :
    (List.replicate n ([] : List Block)).flatten = [] := by
  induction n with
  | zero => simp
  | succ n ih => simp [List.replicate, ih]

theorem scanStep_flatten (pages : List (List Block)) (b : Block) :
    (scanStep pages b).flatten = pages.flatten ++ [b] := by
  simp [scanStep, appendToLast_flatten, flatten_replicate_nil]

theorem scanStep_length (pages : List (List Block)) (b : Block)
    (h : pages ≠ []) :
    (scanStep pages b).length = pages.length + blockBreakRuns b := by
  simp [scanStep, appendToLast_length pages b h]

theorem scanStep_ne_nil (pages : List (List Block)) (b : Block) :
    scanStep pages b ≠ [] := by
  simp [scanStep, appendToLast_ne_nil]

theorem foldl_scanStep_flatten (elems : List Block) :
    ∀ pages, (elems.foldl scanStep pages).flatten = pages.flatten ++ elems := by
  induction elems with
  | nil => simp
  | cons b rest ih =>
      intro pages
      simp only [List.foldl_cons]
      rw [ih, scanStep_flatten]
      simp

theorem foldl_scanStep_length (elems : List Block) :
    ∀ pages, pages ≠ [] →
      (elems.foldl scanStep pages).length =
        pages.length + totalBreakRuns elems := by
  induction elems with
  | nil => intro pages _; simp [totalBreakRuns]
  | cons b rest ih =>
      intro pages h
      simp only [List.foldl_cons]
      rw [ih _ (scanStep_ne_nil pages b), scanStep_length pages b h]
      simp [totalBreakRuns, Nat.add_assoc]

/-- The scan loop loses nothing and removes nothing: the concatenation
of all pages, break-marker paragraphs included, is the element list. -/
theorem scanPages_flatten (elems : List Block) :
    (scanPages elems).flatten = elems := by
  simpa [scanPages] using foldl_scanStep_flatten elems [[]]

theorem scanPages_length (elems : List Block) :
    (scanPages elems).length = 1 + totalBreakRuns elems := by
  simpa [scanPages] using foldl_scanStep_length elems [[]] (by simp)

theorem run_markers_pos (r : Run) (hr : runHasPageBreak r = true) :
    1 ≤ (r.content.filter isPageBreakItem).length := by
  simp only [runHasPageBreak, List.any_eq_true] at hr
  obtain ⟨k, hk, hpk⟩ := hr
  have hmem : k ∈ r.content.filter isPageBreakItem :=
    List.mem_filter.mpr ⟨hk, hpk⟩
  exact Nat.succ_le_of_lt (List.length_pos_of_mem hmem)

theorem blockBreakRuns_le_markers (b : Block) :
    blockBreakRuns b ≤ blockPageMarkers b := by
  cases b with
  | table s rows => simp [blockBreakRuns, blockPageMarkers]
  | para runs =>
      simp only [blockBreakRuns, blockPageMarkers]
      induction runs with
      | nil => simp
      | cons r rest ih =>
          by_cases hr : runHasPageBreak r = true
          · have h1 := run_markers_pos r hr
            simp only [List.filter_cons, hr, if_true, List.map_cons,
              List.sum_cons, List.length_cons]
            omega
          · simp only [List.filter_cons, hr, Bool.false_eq_true, if_false,
              List.map_cons, List.sum_cons]
            omega

theorem totalBreakRuns_le_markers (elems : List Block) :
    totalBreakRuns elems ≤ totalPageMarkers elems := by
  induction elems with
  | nil => simp [totalBreakRuns, totalPageMarkers]
  | cons b rest ih =>
      simp only [totalBreakRuns, totalPageMarkers, List.map_cons,
        List.sum_cons] at *
      exact Nat.add_le_add (blockBreakRuns_le_markers b) ih

theorem flatten_filter_sublist (l : List (List Block)) (p : List Block → Bool) :
    ((l.filter p).flatten).Sublist l.flatten := by
  induction l with
  | nil => simp
  | cons pg rest ih =>
      by_cases hp : p pg = true
      · simpa [List.filter_cons, hp] using ih.append_left pg
      · simp only [List.filter_cons, hp, Bool.false_eq_true, if_false,
          List.flatten_cons]
        exact ih.trans (List.sublist_append_right pg rest.flatten)

/-! ### Copy-loop lemmas -/

theorem copyTable_error_eq (rows : List (List String)) (e : SplitError)
    (h : copyTable rows = .error e) : e = .indexError := by
  cases rows with
  | nil =>
      rw [copyTable] at h
      injection h with h'
      exact h'.symm
  | cons r0 rest =>
      by_cases hall : ((r0 :: rest).all fun r => r.length ≤ r0.length) = true
      · simp [copyTable, hall] at h
      · simp only [copyTable, hall, Bool.false_eq_true, if_false] at h
        injection h with h'
        exact h'.symm

theorem copyBlockOne_error_eq (b : Block) (e : SplitError)
    (h : copyBlockOne b = .error e) : e = .indexError := by
  cases b with
  | para runs =>
      by_cases hb : strBlank (paraText runs) = true <;>
        simp [copyBlockOne, hb] at h
  | table s rows =>
      cases hc : copyTable rows with
      | error e' =>
          rw [copyBlockOne, hc] at h
          cases h
          exact copyTable_error_eq rows e hc
      | ok t => rw [copyBlockOne, hc] at h; cases h

theorem copyBlockOne_ok_eq (b : Block) (hd : List Block)
    (h : copyBlockOne b = .ok hd) : hd = (copyBlockSpec b).toList := by
  cases b with
  | para runs =>
      by_cases hb : strBlank (paraText runs) = true <;>
        simp only [copyBlockOne, copyBlockSpec, hb, Bool.false_eq_true,
          if_true, if_false] at h ⊢ <;>
        cases h <;> rfl
  | table s rows =>
      cases rows with
      | nil => simp [copyBlockOne, copyTable, Except.map] at h
      | cons r0 rest =>
          by_cases hall : ((r0 :: rest).all fun r => r.length ≤ r0.length) = true
          · simp only [copyBlockOne, copyTable, hall, if_true,
              Except.map] at h
            cases h
            simp [copyBlockSpec, padRows]
          · simp [copyBlockOne, copyTable, hall, Except.map] at h

theorem copyBlockOne_zero_row (s : String) :
    copyBlockOne (.table s []) = .error .indexError := by
  simp [copyBlockOne, copyTable, Except.map]

theorem copyBlocks_error_eq (l : List Block) (e : SplitError)
    (h : copyBlocks l = .error e) : e = .indexError := by
  induction l with
  | nil => simp [copyBlocks] at h
  | cons b rest ih =>
      rw [copyBlocks] at h
      cases h1 : copyBlockOne b with
      | error e' =>
          rw [h1] at h
          cases h
          exact copyBlockOne_error_eq b e h1
      | ok hd =>
          rw [h1] at h
          cases h2 : copyBlocks rest with
          | error e' =>
              rw [h2] at h
              cases h
              exact ih h2
          | ok tl => rw [h2] at h; cases h

theorem copyBlocks_ok_eq (l : List Block) (out : List Block)
    (h : copyBlocks l = .ok out) : out = l.filterMap copyBlockSpec := by
  induction l generalizing out with
  | nil => rw [copyBlocks] at h; cases h; rfl
  | cons b rest ih =>
      rw [copyBlocks] at h
      cases h1 : copyBlockOne b with
      | error e' => rw [h1] at h; cases h
      | ok hd =>
          rw [h1] at h
          cases h2 : copyBlocks rest with
          | error e' => rw [h2] at h; cases h
          | ok tl =>
              rw [h2] at h
              cases h
              rw [ih tl h2, copyBlockOne_ok_eq b hd h1,
                List.filterMap_cons]
              cases copyBlockSpec b <;> simp

theorem copyBlocks_ok_no_zero_row (l : List Block) (out : List Block)
    (h : copyBlocks l = .ok out) : containsZeroRowTable l = false := by
  induction l generalizing out with
  | nil => rfl
  | cons b rest ih =>
      rw [copyBlocks] at h
      cases h1 : copyBlockOne b with
      | error e' => rw [h1] at h; cases h
      | ok hd =>
          rw [h1] at h
          cases h2 : copyBlocks rest with
          | error e' => rw [h2] at h; cases h
          | ok tl =>
              have hrest := ih tl h2
              cases b with
              | para runs => simpa [containsZeroRowTable] using hrest
              | table s rows =>
                  cases rows with
                  | nil => simp [copyBlockOne, copyTable, Except.map] at h1
                  | cons r0 rrest =>
                      simpa [containsZeroRowTable] using hrest

theorem emitChunk_plain (acc : List Char) :
    (emitChunk acc).all inlineIsPlainItem = true := by
  unfold emitChunk
  split <;> simp [inlineIsPlainItem]

theorem textToInlinesAux_plain (cs : List Char) :
    ∀ acc, (textToInlinesAux cs acc).all inlineIsPlainItem = true := by
  induction cs with
  | nil => intro acc; simpa [textToInlinesAux] using emitChunk_plain acc
  | cons c rest ih =>
      intro acc
      rw [textToInlinesAux]
      by_cases hc : c = '\n' ∨ c = '\r'
      · rw [if_pos hc]
        simp [List.all_append, emitChunk_plain, inlineIsPlainItem, ih]
      · rw [if_neg hc]
        exact ih (acc ++ [c])

/-- Every inline item the text setter produces is a text chunk or a
line break. -/
theorem textToInlines_plain (s : String) :
    (textToInlines s).all inlineIsPlainItem = true :=
  textToInlinesAux_plain s.data []

theorem copyBlockSpec_plain (b b' : Block)
    (h : copyBlockSpec b = some b') : blockIsPlain b' = true := by
  cases b with
  | para runs =>
      by_cases hb : strBlank (paraText runs) = true <;>
        simp only [copyBlockSpec, hb, Bool.false_eq_true, if_true,
          if_false] at h
      · cases h
      · cases h
        simp only [blockIsPlain, Bool.and_eq_true, beq_self_eq_true,
          true_and]
        exact textToInlines_plain (paraText runs)
  | table s rows =>
      cases h
      simp [blockIsPlain]

theorem copyBlocks_ok_plain (l out : List Block)
    (h : copyBlocks l = .ok out) :
    ∀ b ∈ out, blockIsPlain b = true := by
  intro b hb
  rw [copyBlocks_ok_eq l out h] at hb
  obtain ⟨a, _, ha⟩ := List.mem_filterMap.mp hb
  exact copyBlockSpec_plain a b ha

theorem composeStudent_ok_parts (ov pg out : List Block)
    (h : composeStudent ov pg = .ok out) :
    ∃ o p, copyBlocks ov = .ok o ∧ copyBlocks pg = .ok p ∧
      out = o ++ [syntheticBreakParagraph] ++ p := by
  rw [composeStudent] at h
  cases h1 : copyBlocks ov with
  | error e => rw [h1] at h; cases h
  | ok o =>
      rw [h1] at h
      cases h2 : copyBlocks pg with
      | error e => rw [h2] at h; cases h
      | ok p =>
          rw [h2] at h
          cases h
          exact ⟨o, p, rfl, rfl, rfl⟩

theorem composeStudent_ok_eq (ov pg out : List Block)
    (h : composeStudent ov pg = .ok out) :
    out = ov.filterMap copyBlockSpec ++ [syntheticBreakParagraph] ++
      pg.filterMap copyBlockSpec := by
  obtain ⟨o, p, h1, h2, rfl⟩ := composeStudent_ok_parts ov pg out h
  rw [copyBlocks_ok_eq ov o h1, copyBlocks_ok_eq pg p h2]

theorem composeStudent_error_eq (ov pg : List Block) (e : SplitError)
    (h : composeStudent ov pg = .error e) : e = .indexError := by
  rw [composeStudent] at h
  cases h1 : copyBlocks ov with
  | error e' =>
      rw [h1] at h
      cases h
      exact copyBlocks_error_eq ov e h1
  | ok o =>
      rw [h1] at h
      cases h2 : copyBlocks pg with
      | error e' =>
          rw [h2] at h
          cases h
          exact copyBlocks_error_eq pg e h2
      | ok p => rw [h2] at h; cases h

/-! ### Student-loop lemmas -/

theorem studentLoop_error_eq (ov : List Block) (pages : List (List Block))
    (c : Nat) (e : SplitError)
    (h : studentLoop ov pages c = .error e) : e = .indexError := by
  induction pages generalizing c with
  | nil => rw [studentLoop] at h; cases h
  | cons pg rest ih =>
      rw [studentLoop] at h
      by_cases hc : pageHasContent pg = true
      · rw [if_pos hc] at h
        cases h1 : composeStudent ov pg with
        | error e' =>
            rw [h1] at h
            cases h
            exact composeStudent_error_eq ov pg e h1
        | ok body =>
            rw [h1] at h
            cases h2 : studentLoop ov rest (c + 1) with
            | error e' =>
                rw [h2] at h
                cases h
                exact ih (c + 1) h2
            | ok pr => rw [h2] at h; cases h
      · rw [if_neg hc] at h
        exact ih c h

theorem studentLoop_ok_names (ov : List Block) (pages : List (List Block))
    (c n : Nat) (outs : List (String × List Block))
    (h : studentLoop ov pages c = .ok (n, outs)) :
    n = c + outs.length ∧
      outs.map Prod.fst =
        (List.range outs.length).map fun i => studentName (c + i + 1) := by
  induction pages generalizing c n outs with
  | nil =>
      rw [studentLoop] at h
      cases h
      simp
  | cons pg rest ih =>
      rw [studentLoop] at h
      by_cases hc : pageHasContent pg = true
      · rw [if_pos hc] at h
        cases h1 : composeStudent ov pg with
        | error e' => rw [h1] at h; cases h
        | ok body =>
            rw [h1] at h
            cases h2 : studentLoop ov rest (c + 1) with
            | error e' => rw [h2] at h; cases h
            | ok pr =>
                obtain ⟨n2, outs'⟩ := pr
                rw [h2] at h
                cases h
                obtain ⟨hn, hnames⟩ := ih (c + 1) _ _ h2
                refine ⟨by simp only [List.length_cons]; omega, ?_⟩
                rw [List.map_cons, List.length_cons, List.range_succ_eq_map,
                  List.map_cons, List.map_map, hnames]
                congr 1
                apply List.map_congr_left
                intro i _
                simp only [Function.comp]
                exact congrArg studentName (by omega)
      · rw [if_neg hc] at h
        exact ih c n outs h

theorem studentLoop_mem_body (ov : List Block) (pages : List (List Block))
    (c n : Nat) (outs : List (String × List Block))
    (h : studentLoop ov pages c = .ok (n, outs)) :
    ∀ o ∈ outs, ∃ pg ∈ pages, composeStudent ov pg = .ok o.2 := by
  induction pages generalizing c n outs with
  | nil =>
      rw [studentLoop] at h
      cases h
      intro o ho
      cases ho
  | cons pg rest ih =>
      rw [studentLoop] at h
      by_cases hc : pageHasContent pg = true
      · rw [if_pos hc] at h
        cases h1 : composeStudent ov pg with
        | error e' => rw [h1] at h; cases h
        | ok body =>
            rw [h1] at h
            cases h2 : studentLoop ov rest (c + 1) with
            | error e' => rw [h2] at h; cases h
            | ok pr =>
                obtain ⟨n2, outs'⟩ := pr
                rw [h2] at h
                cases h
                intro o ho
                cases ho with
                | head => exact ⟨pg, List.mem_cons_self pg rest, h1⟩
                | tail _ htail =>
                    obtain ⟨pg', hpg', hco⟩ := ih (c + 1) _ _ h2 o htail
                    exact ⟨pg', List.mem_cons_of_mem pg hpg', hco⟩
      · rw [if_neg hc] at h
        intro o ho
        obtain ⟨pg', hpg', hco⟩ := ih c n outs h o ho
        exact ⟨pg', List.mem_cons_of_mem pg hpg', hco⟩

theorem studentLoop_ok_bodies (ov : List Block) (pages : List (List Block))
    (c n : Nat) (outs : List (String × List Block))
    (hall : ∀ pg ∈ pages, pageHasContent pg = true)
    (h : studentLoop ov pages c = .ok (n, outs)) :
    outs.map Prod.snd =
      pages.map fun pg =>
        ov.filterMap copyBlockSpec ++ [syntheticBreakParagraph] ++
          pg.filterMap copyBlockSpec := by
  induction pages generalizing c n outs with
  | nil =>
      rw [studentLoop] at h
      cases h
      rfl
  | cons pg rest ih =>
      rw [studentLoop] at h
      have hc : pageHasContent pg = true := hall pg (List.mem_cons_self pg rest)
      rw [if_pos hc] at h
      cases h1 : composeStudent ov pg with
      | error e' => rw [h1] at h; cases h
      | ok body =>
          rw [h1] at h
          cases h2 : studentLoop ov rest (c + 1) with
          | error e' => rw [h2] at h; cases h
          | ok pr =>
              obtain ⟨n2, outs'⟩ := pr
              rw [h2] at h
              cases h
              have hrest := ih (c + 1) _ _
                (fun p hp => hall p (List.mem_cons_of_mem pg hp)) h2
              simp only [List.map_cons]
              rw [hrest, composeStudent_ok_eq ov pg body h1]

theorem studentLoop_zero_row (ov : List Block) (pages : List (List Block))
    (c : Nat)
    (hall : ∀ pg ∈ pages, pageHasContent pg = true)
    (hex : ∃ pg ∈ pages, containsZeroRowTable pg = true) :
    studentLoop ov pages c = .error .indexError := by
  induction pages generalizing c with
  | nil =>
      obtain ⟨pg, hpg, _⟩ := hex
      cases hpg
  | cons pg rest ih =>
      rw [studentLoop]
      have hc : pageHasContent pg = true := hall pg (List.mem_cons_self pg rest)
      rw [if_pos hc]
      cases h1 : composeStudent ov pg with
      | error e' =>
          rw [composeStudent_error_eq ov pg e' h1]
      | ok body =>
          obtain ⟨pg', hpg', hzero⟩ := hex
          cases hpg' with
          | head =>
              obtain ⟨o, p, _, hp, _⟩ := composeStudent_ok_parts ov pg body h1
              rw [copyBlocks_ok_no_zero_row pg p hp] at hzero
              cases hzero
          | tail _ htail =>
              rw [ih (c + 1) (fun q hq => hall q (List.mem_cons_of_mem pg hq))
                ⟨pg', htail, hzero⟩]

/-! ### Claim C1 -/

/-- C1 fails on the code: for the body whose first Paragraph holds
text "a", a page-break marker, then text "b", the returned pages still
contain the marker, the whole Paragraph (post-break text "b" included)
stays in the closed first page, and the next page starts with the
following Paragraph "c" only. -/
theorem c1_counterexample :
    ((retainedPages c1Body).any fun pg => pg.any blockHasPageBreak) = true ∧
    retainedPages c1Body =
      [[.para c1Runs], [.para [⟨[.text "c"], ""⟩]]] := by decide

/-- C1 (amended): when the Scanner processes a Paragraph containing
inline page-break markers, the entire Paragraph — markers and
post-break content included — is appended to the page being closed, one
fresh empty page is opened per marker-bearing run, and the Paragraph
remains in the concatenation of the returned pages. -/
theorem c1_break_paragraph_kept (xs : List Block) (runs : List Run) :
    scanPages (xs ++ [Block.para runs]) =
      appendToLast (scanPages xs) (Block.para runs) ++
        List.replicate (blockBreakRuns (Block.para runs)) [] ∧
    Block.para runs ∈ (scanPages (xs ++ [Block.para runs])).flatten := by
  constructor
  · simp [scanPages, List.foldl_append, scanStep]
  · rw [scanPages_flatten]
    simp

/-! ### Claim C2 -/

/-- C2 fails on the code: for a body of one Paragraph with text "a" and
one page-break marker, the concatenation of the returned pages is not
the body with break markers removed — the marker is still present. -/
theorem c2_counterexample :
    totalPageMarkers (parseElements c2Body) = 1 ∧
    (retainedPages c2Body).flatten ≠
      specStripPageMarkers (parseElements c2Body) ∧
    ((retainedPages c2Body).any fun pg => pg.any blockHasPageBreak) = true := by
  decide

/-- C2 (amended): before pruning the Scanner returns exactly
1 + (number of marker-bearing runs) pages, which is between 1 and k+1
for k page-break markers, and their ordered concatenation equals the
body exactly — break markers retained, nothing lost; pruning removes
whole content-empty pages, so the concatenation of the pruned pages is
a subsequence of the body. -/
theorem c2_partition (elems : List Block) :
    (scanPages elems).flatten = elems ∧
    (scanPages elems).length = 1 + totalBreakRuns elems ∧
    totalBreakRuns elems ≤ totalPageMarkers elems ∧
    (((scanPages elems).filter pageHasContent).flatten).Sublist elems := by
  refine ⟨scanPages_flatten elems, scanPages_length elems,
    totalBreakRuns_le_markers elems, ?_⟩
  have h := flatten_filter_sublist (scanPages elems) pageHasContent
  rwa [scanPages_flatten] at h

/-! ### Inversion of a successful run -/

theorem split_ok_inv (inp : SplitInput) (d : Bool) (r : RunResult)
    (h : (split inp d).1 = .ok r) :
    ∃ ov pgs outs,
      inp.fileExists = true ∧
      retainedPages inp.body = ov :: pgs ∧
      copyBlocks ov = .ok r.overviewBody ∧
      studentLoop ov pgs 0 = .ok (r.count, outs) ∧
      r.students = outs ∧ r.warned = (r.count == 0) := by
  by_cases hf : inp.fileExists = true
  · simp only [split, hf, if_true] at h
    cases hr : retainedPages inp.body with
    | nil => rw [hr] at h; exact absurd h (by simp)
    | cons ov pgs =>
        rw [hr] at h
        dsimp only at h
        cases h1 : copyBlocks ov with
        | error e => rw [h1] at h; exact absurd h (by simp)
        | ok ovB =>
            rw [h1] at h
            dsimp only at h
            cases h2 : studentLoop ov pgs 0 with
            | error e => rw [h2] at h; exact absurd h (by simp)
            | ok pr =>
                obtain ⟨n, outs⟩ := pr
                rw [h2] at h
                dsimp only at h
                cases h
                exact ⟨ov, pgs, outs, hf, rfl, h1, h2, rfl, rfl⟩
  · have hf' : inp.fileExists = false := by simpa using hf
    simp only [split, hf', Bool.false_eq_true, if_false] at h
    cases h

theorem retained_mem_content (body : List RawElem) (pg : List Block)
    (h : pg ∈ retainedPages body) : pageHasContent pg = true := by
  simp only [retainedPages] at h
  exact List.of_mem_filter h

/-! ### Claim C3 -/

/-- C3 fails on the code: a student page whose first table reads
"Student:", "Jane Doe", ... is written as "Student_1.docx"; the label
"Jane Doe" is never extracted or used. -/
theorem c3_counterexample :
    (split ⟨true, c3Body⟩ false).1 = .ok c3Res ∧
    c3Res.students.map Prod.fst = ["Student_1.docx"] ∧
    "Jane Doe.docx" ∉ c3Res.students.map Prod.fst := by decide

/-- C3 (amended): every run that completes names its non-overview
outputs "Student_1.docx", "Student_2.docx", ... by position among the
retained non-empty student pages; no label extraction, fallback name or
collision suffixing takes place, and the names are distinct by
construction. -/
theorem c3_names (inp : SplitInput) (d : Bool) (r : RunResult)
    (h : (split inp d).1 = .ok r) :
    r.students.map Prod.fst =
      (List.range r.count).map fun i => studentName (i + 1) := by
  obtain ⟨ov, pgs, outs, hf, hr, h1, h2, hst, hw⟩ := split_ok_inv inp d r h
  obtain ⟨hn, hnames⟩ := studentLoop_ok_names ov pgs 0 r.count outs h2
  rw [hst, hnames]
  have hc : r.count = outs.length := by omega
  rw [hc]
  apply List.map_congr_left
  intro i _
  exact congrArg studentName (by omega)

/-- Witness for C3 (amended) at a concrete input carrying a
"Student:" label. -/
theorem c3_names_witness :
    (split ⟨true, c3Body⟩ false).1 = .ok c3Res ∧
    c3Res.students.map Prod.fst =
      (List.range c3Res.count).map fun i => studentName (i + 1) :=
  ⟨by decide, c3_names ⟨true, c3Body⟩ false c3Res (by decide)⟩

/-! ### Claim C4 -/

/-- C4 fails on the code: when the overview page holds a whitespace-only
Paragraph (and the consumed break-marker Paragraph), the student output
body is not overview-blocks ++ break ++ page-blocks — the blank blocks
are dropped during copying. -/
theorem c4_counterexample :
    (split ⟨true, c4cBody⟩ false).1 = .ok c4cRes ∧
    retainedPages c4cBody = [c4cOv, c4cPg] ∧
    c4cRes.students.map Prod.snd ≠
      [c4cOv ++ [syntheticBreakParagraph] ++ c4cPg] := by decide

/-- C4 (amended): every composed student output body is the overview
page's blocks copied (whitespace-only paragraphs dropped; each other
paragraph rebuilt as one default-styled run holding its rendered text,
in which every newline — including those rendered from inline breaks —
is re-materialized as a line-break element; tables rebuilt as padded
text grids), then exactly one synthetic page-break Paragraph, then the
student page's blocks copied the same way; no synthetic break follows
the final group. -/
theorem c4_composition (inp : SplitInput) (d : Bool) (r : RunResult)
    (ov : List Block) (pgs : List (List Block))
    (h : (split inp d).1 = .ok r)
    (hr : retainedPages inp.body = ov :: pgs) :
    r.students.map Prod.snd =
      pgs.map fun pg =>
        ov.filterMap copyBlockSpec ++ [syntheticBreakParagraph] ++
          pg.filterMap copyBlockSpec := by
  obtain ⟨ov', pgs', outs, hf, hr', h1, h2, hst, hw⟩ := split_ok_inv inp d r h
  rw [hr] at hr'
  injection hr' with hov hpgs
  subst hov
  subst hpgs
  have hall : ∀ pg ∈ pgs, pageHasContent pg = true := by
    intro pg hpg
    exact retained_mem_content inp.body pg
      (by rw [hr]; exact List.mem_cons_of_mem _ hpg)
  rw [hst]
  exact studentLoop_ok_bodies ov pgs 0 r.count outs hall h2

/-- Witness for C4 (amended) at the end-to-end example body of the
spec, where the claim's expected outputs do appear because all the
copied blocks are plain and the consumed break paragraphs are blank. -/
theorem c4_composition_witness :
    (split ⟨true, c4Body⟩ false).1 = .ok c4Res ∧
    retainedPages c4Body = c4Ov :: c4Pgs ∧
    c4Res.students.map Prod.snd =
      c4Pgs.map (fun pg =>
        c4Ov.filterMap copyBlockSpec ++ [syntheticBreakParagraph] ++
          pg.filterMap copyBlockSpec) :=
  ⟨by decide, by decide,
    c4_composition ⟨true, c4Body⟩ false c4Res c4Ov c4Pgs (by decide) (by decide)⟩

/-! ### Claim C5 -/

/-- C5 fails on the code: page 0 holds a styled paragraph whose run
contains a page break amid text, but the overview written to every
output is not that page unmodified — the copy loses the style and
converts the page-break element into a line-break element (the text
setter re-materializes the rendered newline as a `w:br` line break). -/
theorem c5_counterexample :
    (split ⟨true, c5Body⟩ false).1 = .ok c5Res ∧
    retainedPages c5Body = [c5Pg0, [.para [⟨[.text "y"], ""⟩]]] ∧
    c5Res.overviewBody ≠ c5Pg0 ∧
    (c5Pg0.any fun b => !blockIsPlain b) = true ∧
    (c5Pg0.any blockHasPageBreak) = true ∧
    (c5Res.overviewBody.any blockHasPageBreak) = false := by decide

/-- C5 (amended): outputs do not preserve the source formatting — every
block of every written document is plain: a single default-styled run
per paragraph whose content is only text chunks and line-break
elements (page and column breaks and run styles do not survive; each
newline the source text renders, breaks included, is re-materialized
as a line break), and default-styled tables — except the synthetic
page-break separator itself. -/
theorem c5_formatting (inp : SplitInput) (d : Bool) (r : RunResult)
    (h : (split inp d).1 = .ok r) :
    (∀ b ∈ r.overviewBody, blockIsPlain b = true) ∧
    ∀ o ∈ r.students, ∀ b ∈ o.2,
      blockIsPlain b = true ∨ b = syntheticBreakParagraph := by
  obtain ⟨ov, pgs, outs, hf, hr, h1, h2, hst, hw⟩ := split_ok_inv inp d r h
  refine ⟨copyBlocks_ok_plain ov r.overviewBody h1, ?_⟩
  intro o ho b hb
  rw [hst] at ho
  obtain ⟨pg, hpg, hco⟩ := studentLoop_mem_body ov pgs 0 r.count outs h2 o ho
  obtain ⟨o', p', ho', hp', heq⟩ := composeStudent_ok_parts ov pg o.2 hco
  rw [heq] at hb
  rcases List.mem_append.mp hb with hb1 | hb2
  · rcases List.mem_append.mp hb1 with hb3 | hb4
    · exact Or.inl (copyBlocks_ok_plain ov o' ho' b hb3)
    · exact Or.inr (by simpa using hb4)
  · exact Or.inl (copyBlocks_ok_plain pg p' hp' b hb2)

/-- Witness for C5 (amended) at a concrete input whose overview
paragraph is styled and carries a page break amid text; the copied
run keeps the text with a line break in its place and is plain. -/
theorem c5_formatting_witness :
    (split ⟨true, c5Body⟩ false).1 = .ok c5Res ∧
    ((∀ b ∈ c5Res.overviewBody, blockIsPlain b = true) ∧
      ∀ o ∈ c5Res.students, ∀ b ∈ o.2,
        blockIsPlain b = true ∨ b = syntheticBreakParagraph) :=
  ⟨by decide, c5_formatting ⟨true, c5Body⟩ false c5Res (by decide)⟩

/-! ### Claim C6 -/

/-- C6 names a real code bug: for two adjacent tables the
element-combination loop overwrites the pending table before flushing
it, so `parseElements` returns only the first table and drops the
second, violating order preservation — while a lone table at the end of
the body is handled correctly. -/
theorem c6_adjacent_tables_bug :
    parseElements c6Body =
      [.table "A" [["a"]], .para [⟨[.text "P"], ""⟩]] ∧
    parseElements c6Body ≠
      [.table "A" [["a"]], .table "B" [["b"]], .para [⟨[.text "P"], ""⟩]] ∧
    parseElements [.p [⟨[.text "P"], ""⟩], .tbl "A" [["a"]]] =
      [.para [⟨[.text "P"], ""⟩], .table "A" [["a"]]] := by decide

/-! ### Claim C7 -/

/-- C7 fails on the code: a non-empty body (one whitespace-only
Paragraph) with zero page-break markers does not complete with count 0
— `split_document` raises the empty-document `ValueError`. -/
theorem c7_counterexample :
    c7cBody ≠ [] ∧
    totalPageMarkers (parseElements c7cBody) = 0 ∧
    (split ⟨true, c7cBody⟩ false).1 = .error .emptyDocument := by decide

/-- C7 (amended): for every body with zero page-break markers that has
at least one content-bearing block and whose single page copies without
error, split completes, returns studentDocumentCount = 0, and emits the
no-page-breaks warning. -/
theorem split_eval (inp : SplitInput) (d : Bool)
    (hf : inp.fileExists = true)
    (ov : List Block) (pgs : List (List Block))
    (hr : retainedPages inp.body = ov :: pgs) (ovB : List Block)
    (h1 : copyBlocks ov = .ok ovB) (n : Nat)
    (outs : List (String × List Block))
    (h2 : studentLoop ov pgs 0 = .ok (n, outs)) :
    split inp d = (.ok ⟨n, ovB, outs, n == 0⟩, true) := by
  simp only [split, hf, if_true]
  rw [hr]
  dsimp only
  rw [h1]
  dsimp only
  rw [h2]

theorem c7_no_breaks (body : List RawElem) (d : Bool) (l : List Block)
    (h0 : totalBreakRuns (parseElements body) = 0)
    (h1 : pageHasContent (parseElements body) = true)
    (h2 : copyBlocks (parseElements body) = .ok l) :
    (split ⟨true, body⟩ d).1 = .ok ⟨0, l, [], true⟩ := by
  have hlen : (scanPages (parseElements body)).length = 1 := by
    rw [scanPages_length, h0]
  obtain ⟨pg, hpg⟩ := List.length_eq_one.mp hlen
  have hpgeq : pg = parseElements body := by
    have hfl := scanPages_flatten (parseElements body)
    rw [hpg] at hfl
    simpa using hfl
  rw [hpgeq] at hpg
  have hret : retainedPages body = [parseElements body] := by
    simp only [retainedPages, hpg, List.filter_cons, h1, if_true,
      List.filter_nil]
  rw [split_eval ⟨true, body⟩ d rfl (parseElements body) [] hret l h2 0 [] rfl]
  rfl

/-- Witness for C7 (amended) at a one-paragraph body. -/
theorem c7_no_breaks_witness :
    totalBreakRuns (parseElements c7Body) = 0 ∧
    pageHasContent (parseElements c7Body) = true ∧
    copyBlocks (parseElements c7Body) = .ok [.para [⟨[.text "x"], ""⟩]] ∧
    (split ⟨true, c7Body⟩ false).1 =
      .ok ⟨0, [.para [⟨[.text "x"], ""⟩]], [], true⟩ :=
  ⟨by decide, by decide, by decide,
    c7_no_breaks c7Body false [.para [⟨[.text "x"], ""⟩]]
      (by decide) (by decide) (by decide)⟩

/-! ### Claim C8 -/

/-- C8 fails on the code: the empty-document error is not limited to
documents with zero Blocks — a body holding one whitespace-only Block
also aborts the run with it. -/
theorem c8_counterexample :
    (parseElements c8cBody).length = 1 ∧
    (split ⟨true, c8cBody⟩ false).1 = .error .emptyDocument := by decide

/-- C8 (amended): split returns the input-not-found error exactly when
the path does not resolve, and the empty-document error exactly when
the file exists but no page retains content (zero Blocks, or only
whitespace-empty ones); in both cases the run aborts with no count. -/
theorem c8_fatal_errors (inp : SplitInput) (d : Bool) :
    ((split inp d).1 = .error .inputNotFound ↔ inp.fileExists = false) ∧
    ((split inp d).1 = .error .emptyDocument ↔
      (inp.fileExists = true ∧ retainedPages inp.body = [])) := by
  by_cases hf : inp.fileExists = true
  · cases hr : retainedPages inp.body with
    | nil => simp [split, hf, hr]
    | cons ov pgs =>
        cases h1 : copyBlocks ov with
        | error e =>
            have he := copyBlocks_error_eq ov e h1
            subst he
            simp [split, hf, hr, h1]
        | ok ovB =>
            cases h2 : studentLoop ov pgs 0 with
            | error e =>
                have he := studentLoop_error_eq ov pgs 0 e h2
                subst he
                simp [split, hf, hr, h1, h2]
            | ok pr =>
                obtain ⟨n, outs⟩ := pr
                simp [split, hf, hr, h1, h2]
  · have hf' : inp.fileExists = false := by simpa using hf
    simp [split, hf']

/-! ### Claim C9 -/

/-- C9 holds: whenever some retained page (the overview included)
contains a table with zero rows, composing the outputs indexes the
table's first row and the whole run aborts with the IndexError. -/
theorem c9_zero_row_table (inp : SplitInput) (d : Bool)
    (hf : inp.fileExists = true)
    (hex : ∃ pg ∈ retainedPages inp.body, containsZeroRowTable pg = true) :
    (split inp d).1 = .error .indexError := by
  cases hr : retainedPages inp.body with
  | nil =>
      rw [hr] at hex
      obtain ⟨pg, hpg, _⟩ := hex
      cases hpg
  | cons ov pgs =>
      have hall : ∀ pg ∈ pgs, pageHasContent pg = true := by
        intro pg hpg
        exact retained_mem_content inp.body pg
          (by rw [hr]; exact List.mem_cons_of_mem _ hpg)
      rw [hr] at hex
      simp only [split, hf, if_true, hr]
      cases h1 : copyBlocks ov with
      | error e =>
          dsimp only
          rw [copyBlocks_error_eq ov e h1]
      | ok ovB =>
          dsimp only
          obtain ⟨pg, hpg, hzero⟩ := hex
          cases hpg with
          | head =>
              rw [copyBlocks_ok_no_zero_row ov ovB h1] at hzero
              cases hzero
          | tail _ htail =>
              rw [studentLoop_zero_row ov pgs 0 hall ⟨pg, htail, hzero⟩]

/-- Witness for C9 at a retained page holding text and a zero-row
table. -/
theorem c9_zero_row_table_witness :
    (∃ pg ∈ retainedPages c9Body, containsZeroRowTable pg = true) ∧
    (split ⟨true, c9Body⟩ false).1 = .error .indexError :=
  ⟨by decide, c9_zero_row_table ⟨true, c9Body⟩ false rfl (by decide)⟩

/-! ### Claim C10 -/

/-- C10 holds: after any call in which the input file exists, the
output directory exists — its creation precedes loading, so a run that
then fails (empty document, zero-row table) still leaves the directory
behind; only the input-existence check runs earlier, leaving the
directory state unchanged when the file is missing. -/
theorem c10_directory_creation (inp : SplitInput) (d : Bool) :
    (split inp d).2 = (inp.fileExists || d) := by
  by_cases hf : inp.fileExists = true
  · rw [hf, Bool.true_or]
    simp only [split, hf, if_true]
    cases hr : retainedPages inp.body with
    | nil => rfl
    | cons ov pgs =>
        dsimp only
        cases h1 : copyBlocks ov with
        | error e => rfl
        | ok ovB =>
            dsimp only
            cases h2 : studentLoop ov pgs 0 with
            | error e => rfl
            | ok pr =>
                obtain ⟨n, outs⟩ := pr
                rfl
  · have hf' : inp.fileExists = false := by simpa using hf
    rw [hf', Bool.false_or]
    simp [split, hf']

end DocSplit
